import Mathlib

/-!
# Verification of the `zuniq` line-deduplication engine

Shallow embedding of the TypeScript source (the canonical implementation,
the one carrying the `ignoreCase` option).  JavaScript strings are modelled
as `List Char`; the filesystem is modelled as a finite association list
from paths to file contents; warnings are collected in a list; thrown
errors become `Except.error`.

Modelling conventions, justified against JavaScript semantics:
* `String.prototype.split("\n")` never drops fields: `"".split` is `[""]`.
* `line.replace(/\r/g, "")` removes every carriage return.
* `content.replace(/\n+/g, "\n")` collapses each run of line-feeds to one.
* The regex `/(\n+|\r\n+)$/` finds its leftmost match: the maximal trailing
  run of `\n` characters, extended by one if the character just before the
  run is `\r`.
* JS string truthiness: `undefined` and `""` are falsy, everything else
  is truthy.
* Indexing a missing object key yields `undefined`; interpolating it into
  a template string prints the text `undefined`.
* `Object.keys` enumeration order: integer-like keys first (numerically),
  then string keys in insertion order.  We model plain insertion order;
  two distinct keys can only be interchanged by this reordering when at
  least one is integer-like, and integer-like keys contain no letters, so
  no two distinct integer-like (or integer-like vs other) keys are
  case-folded-equal; hence `findLineKey` (which only compares folded
  forms, keeping the last hit) is order-insensitive for the tables this
  program builds and queries, and no claim depends on key enumeration
  order beyond that.
* `toLowerCase` is modelled on the ASCII range (inputs in the claims are
  ASCII).
-/

set_option autoImplicit false

namespace Zuniq

/-- A JavaScript string, modelled as its list of characters. -/
abbrev JStr := List Char

/-- Shorthand to write a modelled JS string as a Lean string literal. -/
def jstr (s : String) : JStr := s.data

/-- ASCII lower-casing of one character (model of JS `toLowerCase`). -/
def jsLowerChar (c : Char) : Char :=
  if 'A' ≤ c ∧ c ≤ 'Z' then Char.ofNat (c.toNat + 32) else c

/-- `s.toLowerCase()` on the ASCII fragment. -/
def jsLower (s : JStr) : JStr := s.map jsLowerChar

/-- JS truthiness of an optional string: `undefined` and `""` are falsy. -/
def jsTruthy : Option JStr → Bool
  | none => false
  | some s => !s.isEmpty

/-- `content.split("\n")`: split on line-feeds, keeping empty fields. -/
def splitLF : JStr → List JStr
  | [] => [[]]
  | c :: cs =>
    if c = '\n' then [] :: splitLF cs
    else
      match splitLF cs with
      | [] => [[c]]
      | l :: ls => (c :: l) :: ls

/-- `array.join("\n")`. -/
def joinLF : List JStr → JStr
  | [] => []
  | [l] => l
  | l :: l' :: ls => l ++ '\n' :: joinLF (l' :: ls)

/-- `line.replace(/\r/g, "")`. -/
def stripCR (l : JStr) : JStr := l.filter (fun c => c ≠ '\r')

/-- `content.replace(/\n+/g, "\n")`: collapse every run of line-feeds to a
single line-feed. -/
def collapseLF : JStr → JStr
  | [] => []
  | [c] => [c]
  | a :: b :: t =>
    if a = '\n' ∧ b = '\n' then collapseLF (b :: t)
    else a :: collapseLF (b :: t)

/-- The whitespace class removed by JS `trimEnd` (ASCII members). -/
def isJSWhitespace (c : Char) : Bool :=
  c = ' ' ∨ c = '\t' ∨ c = '\n' ∨ c = '\r' ∨ c = '\x0b' ∨ c = '\x0c'

/-- `s.trimEnd()`. -/
def trimEnd (s : JStr) : JStr :=
  (s.reverse.dropWhile isJSWhitespace).reverse

/-- Length of the maximal trailing run of `'\n'` characters. -/
def trailingLFRun (s : JStr) : Nat :=
  (s.reverse.takeWhile (fun c => c = '\n')).length

/-- Source `getTrailingNewlinesCount`: the length of the leftmost match of
`/(\n+|\r\n+)$/`, or `0` when there is no match.  The match is the maximal
trailing run of line-feeds, extended by the `'\r'` immediately before it
when there is one. -/
def getTrailingNewlinesCount (s : JStr) : Nat :=
  let r := s.reverse
  let k := (r.takeWhile (fun c => c = '\n')).length
  if k = 0 then 0
  else if (r.drop k).head? = some '\r' then k + 1 else k

/-- `content.replace(trailingNewlinesRegex, "\n")`: replace the (single,
leftmost) match of `/(\n+|\r\n+)$/` by one line-feed. -/
def replaceTrailingNewlines (s : JStr) : JStr :=
  let m := getTrailingNewlinesCount s
  if m = 0 then s else s.take (s.length - m) ++ ['\n']

/-- Source `updateTrailingNewlines`. -/
def updateTrailingNewlines (content : JStr) (trailingNewlinesCount : Nat) : JStr :=
  let c := collapseLF content
  if 1 ≤ trailingNewlinesCount then replaceTrailingNewlines c
  else trimEnd c

/-- JS `Array.prototype.filter` when the callback also takes the element
index; `i` is the index of the head of the remaining list. -/
def filterWithIndexAux {α : Type} (p : α → Nat → Bool) : Nat → List α → List α
  | _, [] => []
  | i, x :: xs =>
    if p x i then x :: filterWithIndexAux p (i + 1) xs
    else filterWithIndexAux p (i + 1) xs

/-- `array.filter((x, index) => ...)`. -/
def filterWithIndex {α : Type} (p : α → Nat → Bool) (xs : List α) : List α :=
  filterWithIndexAux p 0 xs

/-- Source `compareLineWithPreviousLine`: `line` is the carriage-return
stripped current line, while `lines[index - 1]` is the previous line in
its original form. -/
def compareLineWithPreviousLine (line : JStr) (index : Nat) (lines : List JStr)
    (ignoreCase : Bool) : Bool :=
  if ignoreCase then
    decide (index = 0) || decide (jsLower (lines.getD (index - 1) []) ≠ jsLower line)
  else
    decide (index = 0) || decide (lines.getD (index - 1) [] ≠ line)

/-- The keep-predicate inside source `processContent`: a line is kept when
its carriage-return-stripped form is empty, or
`compareLineWithPreviousLine` succeeds on the stripped form. -/
def keepLine (lines : List JStr) (ignoreCase : Bool) (line : JStr)
    (index : Nat) : Bool :=
  let l := stripCR line
  if l = [] then true
  else compareLineWithPreviousLine l index lines ignoreCase

/-- The kept-lines list of source `processContent`. -/
def uniqueLinesOf (content : JStr) (ignoreCase : Bool) : List JStr :=
  let lines := splitLF content
  filterWithIndex (keepLine lines ignoreCase) lines

/-- Source `processContent` (the Default Dedup algorithm). -/
def processContent (content : JStr) (ignoreCase : Bool) : JStr :=
  updateTrailingNewlines (joinLF (uniqueLinesOf content ignoreCase))
    (getTrailingNewlinesCount content)

/-! ## The count table (`LineCount`) -/

/-- Source `LineCount`: a JS object used as a map from line text to a
count, with insertion-ordered keys (see the header note on key order). -/
abbrev LineCount := List (JStr × Nat)

/-- `table[key]` (reading): `undefined` when absent. -/
def lcLookup : LineCount → JStr → Option Nat
  | [], _ => none
  | (k, v) :: t, key => if k = key then some v else lcLookup t key

/-- `table[key] = (table[key] || 0) + 1`: bump, inserting at the end when
the key is new. -/
def lcBump : LineCount → JStr → LineCount
  | [], key => [(key, 1)]
  | (k, v) :: t, key =>
    if k = key then (k, v + 1) :: t else (k, v) :: lcBump t key

/-- `table[key] += 1` for a key that is present (the source only does this
with a key returned by `findLineKey`, hence present; missing keys are
unreachable and left unchanged). -/
def lcIncrExisting : LineCount → JStr → LineCount
  | [], _ => []
  | (k, v) :: t, key =>
    if k = key then (k, v + 1) :: t else (k, v) :: lcIncrExisting t key

/-- `table[key] = 1`: overwrite, inserting at the end when the key is new. -/
def lcSetOne : LineCount → JStr → LineCount
  | [], key => [(key, 1)]
  | (k, v) :: t, key =>
    if k = key then (k, 1) :: t else (k, v) :: lcSetOne t key

/-- Source `findLineKey`: scan `Object.keys(table)` and remember the last
key whose lower-cased form equals the lower-cased probe; `""` doubles as
the not-found sentinel. -/
def findLineKey (table : LineCount) (line : JStr) : JStr :=
  table.foldl
    (fun lineKey kv => if jsLower kv.1 = jsLower line then kv.1 else lineKey)
    []

/-- Source `buildCaseSensitiveLineCount`. -/
def buildCaseSensitiveLineCount (rawContent : JStr) : LineCount :=
  (splitLF rawContent).foldl lcBump []

/-- Source `buildCaseInsensitiveLinesCount`.  Note the JS truthiness test
`if (lineKey)`: a found key that is the empty string is treated exactly
like "not found", so the line is (re)assigned count `1`. -/
def buildCaseInsensitiveLinesCount (rawContent : JStr) : LineCount :=
  (splitLF rawContent).foldl
    (fun table line =>
      let lineKey := findLineKey table (jsLower line)
      if lineKey ≠ [] then lcIncrExisting table lineKey
      else lcSetOne table line)
    []

/-- Source `buildLinesCount`; mirroring the source, the flag (named
`caseSensitive` there, defaulting to `false`) in fact selects the
case-insensitive builder when `true`. -/
def buildLinesCount (rawContent : JStr) (caseSensitive : Bool) : LineCount :=
  if caseSensitive then buildCaseInsensitiveLinesCount rawContent
  else buildCaseSensitiveLineCount rawContent

/-- Decimal digits of a natural number, as a JS string. -/
def natToJStr (n : Nat) : JStr := (Nat.repr n).data

/-- Template interpolation of `table[key]`: a missing key prints as the
text `undefined`. -/
def renderCount : Option Nat → JStr
  | some n => natToJStr n
  | none => jstr "undefined"

/-- Source `getOutputWithCount`.  When `countEnabled` (which is `true` at
every call site) the key is found with the case-insensitive
`findLineKey`, even over a case-sensitive table. -/
def getOutputWithCount (rawContent : JStr) (linesCount : LineCount)
    (countEnabled : Bool) : JStr :=
  joinLF ((splitLF rawContent).map (fun line =>
    if countEnabled then
      renderCount (lcLookup linesCount (findLineKey linesCount line)) ++ ' ' :: line
    else
      renderCount (lcLookup linesCount line) ++ ' ' :: line))

/-! ## Filesystem, options, warnings, errors -/

/-- The filesystem collaborator: a finite map from (nonempty) path names
to file contents. -/
structure FileSystem where
  files : List (JStr × JStr)

/-- Read a file: `none` when the path does not exist.  The empty path
never exists (`fs.access("")` always fails). -/
def fsRead (fs : FileSystem) : JStr → Option JStr :=
  fun p =>
    if p = [] then none
    else (fs.files.find? (fun kv => kv.1 = p)).map Prod.snd

/-- `assertFileExists` as a test: an absent `filePath` (JS `undefined`)
never exists. -/
def fsExistsOpt (fs : FileSystem) : Option JStr → Bool
  | none => false
  | some p => (fsRead fs p).isSome

/-- The two warnings the engine can emit on `console.warn`. -/
inductive ZWarn where
  | modeConflict
  | invalidPathFallback
  deriving DecidableEq, Repr

/-- The two errors the engine can throw. -/
inductive ZErr where
  | invalidPath
  | conflictingInputs
  deriving DecidableEq, Repr

/-- Source `zUniqOptions` (output path omitted from behaviour: the output
sink is modelled as always writable and does not affect the returned
result). -/
structure ZOpts where
  filePath : Option JStr
  content : Option JStr
  count : Bool
  repeated : Bool
  unique : Bool
  ignoreCase : Bool

/-- Source `getRawContent`, returning the resolved raw text together with
the warnings emitted. -/
def getRawContent (fs : FileSystem) (filePath content : Option JStr) :
    Except ZErr (JStr × List ZWarn) :=
  let fileExists := fsExistsOpt fs filePath
  if fileExists && !jsTruthy content then
    .ok ((filePath.bind (fsRead fs)).getD [], [])
  else if !fileExists && jsTruthy content then
    .ok (content.getD [], [.invalidPathFallback])
  else if fileExists && jsTruthy content then
    .error .conflictingInputs
  else
    .ok ([], [])

/-- `Array.from(new Set(xs))`: first occurrences, in order. -/
def dedupFirstAux : List JStr → List JStr → List JStr
  | _, [] => []
  | seen, x :: xs =>
    if x ∈ seen then dedupFirstAux seen xs
    else x :: dedupFirstAux (x :: seen) xs

/-- `Array.from(new Set(xs))`. -/
def dedupFirst (xs : List JStr) : List JStr := dedupFirstAux [] xs

/-- Source `processRepeatedLines`. -/
def processRepeatedLines (fs : FileSystem) (filePath content : Option JStr)
    (count ignoreCase : Bool) : Except ZErr (JStr × List ZWarn) :=
  match getRawContent fs filePath content with
  | .error e => .error e
  | .ok (rawContent, w) =>
    let lines := splitLF rawContent
    if ignoreCase then
      let t := buildLinesCount rawContent true
      let repeatedLines :=
        (t.map Prod.fst).filter (fun k => decide (1 < (lcLookup t k).getD 0))
      let out := joinLF (dedupFirst repeatedLines)
      if count then .ok (getOutputWithCount out t true, w) else .ok (out, w)
    else
      let t := buildLinesCount rawContent false
      let repeatedLines :=
        lines.filter (fun l => decide (1 < (lcLookup t l).getD 0))
      let out := joinLF (dedupFirst repeatedLines)
      if count then .ok (getOutputWithCount out t true, w) else .ok (out, w)

/-- The pure part of `processRepeatedLines`: what repeated mode computes
from already-resolved raw content. -/
def repeatedPipeline (rawContent : JStr) (count ignoreCase : Bool) : JStr :=
  let lines := splitLF rawContent
  if ignoreCase then
    let t := buildLinesCount rawContent true
    let repeatedLines :=
      (t.map Prod.fst).filter (fun k => decide (1 < (lcLookup t k).getD 0))
    let out := joinLF (dedupFirst repeatedLines)
    if count then getOutputWithCount out t true else out
  else
    let t := buildLinesCount rawContent false
    let repeatedLines :=
      lines.filter (fun l => decide (1 < (lcLookup t l).getD 0))
    let out := joinLF (dedupFirst repeatedLines)
    if count then getOutputWithCount out t true else out

/-- What Default Dedup mode computes from already-resolved raw content:
`processContent`, decorated with counts from the case-sensitive table of
the raw content when `count` is set. -/
def defaultPipeline (rawContent : JStr) (count ignoreCase : Bool) : JStr :=
  if count then
    getOutputWithCount (processContent rawContent ignoreCase)
      (buildLinesCount rawContent false) true
  else processContent rawContent ignoreCase

/-- The output either mode produces from resolved raw content. -/
def resolvedOutput (repeated : Bool) (rawContent : JStr)
    (count ignoreCase : Bool) : JStr :=
  if repeated then repeatedPipeline rawContent count ignoreCase
  else defaultPipeline rawContent count ignoreCase

/-- Source `zuniq` (the exported entry point). -/
def zuniq (fs : FileSystem) (o : ZOpts) : Except ZErr (JStr × List ZWarn) :=
  if o.repeated && o.unique then .ok ([], [.modeConflict])
  else if o.repeated then
    processRepeatedLines fs o.filePath o.content o.count o.ignoreCase
  else
    let step : Except ZErr (JStr × List ZWarn) :=
      if jsTruthy o.filePath && jsTruthy o.content then
        -- processFilePathAndContent
        if fsExistsOpt fs o.filePath then .error .conflictingInputs
        else .ok (processContent (o.content.getD []) o.ignoreCase,
          [.invalidPathFallback])
      else if jsTruthy o.content then
        .ok (processContent (o.content.getD []) o.ignoreCase, [])
      else if fsExistsOpt fs o.filePath then
        .ok (processContent ((o.filePath.bind (fsRead fs)).getD [])
          o.ignoreCase, [])
      else .error .invalidPath
    match step with
    | .error e => .error e
    | .ok (outv, w) =>
      if o.count then
        match getRawContent fs o.filePath o.content with
        | .error e => .error e
        | .ok (rawContent, w2) =>
          .ok (getOutputWithCount outv (buildLinesCount rawContent false) true,
            w ++ w2)
      else .ok (outv, w)

/-- An empty filesystem, used for content-only invocations. -/
def fs0 : FileSystem := ⟨[]⟩

/-- A one-file filesystem holding `f ↦ "x\nx\n"`. -/
def fs1 : FileSystem := ⟨[(jstr "f", jstr "x\nx\n")]⟩

end Zuniq

namespace Zuniq

/-! ## Basic truthiness lemmas -/

theorem jsTruthy_none : jsTruthy none = false := rfl

theorem jsTruthy_some_nil : jsTruthy (some ([] : JStr)) = false := rfl

instance exceptDecEq {ε α : Type} [DecidableEq ε] [DecidableEq α] :
    DecidableEq (Except ε α) := fun a b =>
  match a, b with
  | .ok x, .ok y =>
    if h : x = y then .isTrue (by rw [h])
    else .isFalse (by intro hc; cases hc; exact h rfl)
  | .error x, .error y =>
    if h : x = y then .isTrue (by rw [h])
    else .isFalse (by intro hc; cases hc; exact h rfl)
  | .ok _, .error _ => .isFalse (by intro hc; cases hc)
  | .error _, .ok _ => .isFalse (by intro hc; cases hc)

/-! ## Claim C9: `repeated ∧ unique` short-circuits to an empty result -/

/-- C9: for every filesystem and every combination of the other options,
invoking with `repeated = true` and `unique = true` returns the degraded
result `out = ""` together with the mode-conflict warning, and never an
error. -/
theorem claimC9 (fs : FileSystem) (o : ZOpts) (h1 : o.repeated = true)
    (h2 : o.unique = true) : zuniq fs o = .ok ([], [.modeConflict]) := by
  simp [zuniq, h1, h2]

/-- Witness for C9 at a concrete invocation. -/
theorem claimC9_witness :
    zuniq fs0 ⟨some (jstr "p"), some (jstr "x\n"), true, true, true, true⟩ =
      .ok ([], [.modeConflict]) :=
  claimC9 fs0 ⟨some (jstr "p"), some (jstr "x\n"), true, true, true, true⟩
    rfl rfl

/-! ## Claim C1: count decoration in Default Dedup mode

The count table is indeed rebuilt from the raw resolved content, but
`getOutputWithCount` is called with `countEnabled = opts.count`, which is
`true` at every call site, so the count attached to a surviving line is
found with the *case-insensitive* `findLineKey` — keeping the
last-inserted key whose folded form matches — even though the table for
Default Dedup mode is always the case-sensitive one.  With
`ignoreCase = false` and input `"a\na\nA\n"`, the surviving line `a`
(which occurs twice in the raw input) is decorated with the count of the
later key `A`, namely `1`. -/

/-- C1 (code bug evaluation): on input `"a\na\nA\n"` with `count = true`
in Default Dedup mode, the code emits `"1 a\n1 A\n1 "` although `a`
occurs twice in the raw resolved input. -/
theorem claimC1 :
    zuniq fs0 ⟨none, some (jstr "a\na\nA\n"), true, false, false, false⟩ =
      .ok (jstr "1 a\n1 A\n1 ", [.invalidPathFallback]) ∧
    (splitLF (jstr "a\na\nA\n")).count (jstr "a") = 2 ∧
    lcLookup (buildLinesCount (jstr "a\na\nA\n") false) (jstr "a") = some 2 :=
  ⟨rfl, by decide, by decide⟩

/-! ## Claim C8: the case-insensitive count table

`findLineKey` returns `""` both when no key matches and when the matching
key *is* the empty string, and `buildCaseInsensitiveLinesCount` tests the
result for JS truthiness; an empty line whose folded form matches the
existing key `""` is therefore treated as unseen and resets that key's
count to `1` instead of incrementing it. -/

/-- C8 (code bug evaluation): the raw content `"\n"` consists of two
empty lines, yet the case-insensitive table maps `""` to `1`; end to end,
`"\n\n\n"` in repeated+ignoreCase+count mode yields `"1 "` where the
claimed counting would give `"4 "`. -/
theorem claimC8 :
    buildCaseInsensitiveLinesCount (jstr "\n") = [([], 1)] ∧
    (splitLF (jstr "\n")).count [] = 2 ∧
    zuniq fs0 ⟨none, some (jstr "\n\n\n"), true, true, false, true⟩ =
      .ok (jstr "1 ", [.invalidPathFallback]) :=
  ⟨rfl, by decide, rfl⟩

/-! ## Claim C10: empty-string `content` is falsy at the interface -/

/-- C10: `content = ""` behaves exactly like an absent `content`: in
particular, with no `filePath` the call fails with the invalid-path
error rather than returning `out = ""`, and with an existing `filePath`
the file is read without a conflicting-inputs error. -/
theorem claimC10 :
    (∀ (fs : FileSystem) (fp : Option JStr) (cnt rep unq ic : Bool),
      zuniq fs ⟨fp, some [], cnt, rep, unq, ic⟩ =
        zuniq fs ⟨fp, none, cnt, rep, unq, ic⟩) ∧
    (∀ (fs : FileSystem) (cnt ic : Bool),
      zuniq fs ⟨none, some [], cnt, false, false, ic⟩ = .error .invalidPath) ∧
    (∀ (fs : FileSystem) (p c : JStr) (ic : Bool), p ≠ [] → fsRead fs p = some c →
      zuniq fs ⟨some p, some [], false, false, false, ic⟩ =
        .ok (processContent c ic, [])) := by
  refine ⟨?_, ?_, ?_⟩
  · intro fs fp cnt rep unq ic
    cases rep <;> cases unq <;> cases cnt <;>
      simp [zuniq, processRepeatedLines, getRawContent, jsTruthy_some_nil,
        jsTruthy_none, Option.getD]
  · intro fs cnt ic
    cases cnt <;>
      simp [zuniq, jsTruthy_some_nil, jsTruthy_none, fsExistsOpt]
  · intro fs p c ic hp hc
    have hex : fsExistsOpt fs (some p) = true := by
      simp [fsExistsOpt, hc]
    have ht : jsTruthy (some p) = true := by
      simp [jsTruthy, hp]
    simp [zuniq, jsTruthy_some_nil, hex, ht, hc]

/-- Witness for C10: reading the file `f` of `fs1` with `content = ""`
succeeds and deduplicates the file body. -/
theorem claimC10_witness :
    zuniq fs1 ⟨some (jstr "f"), some [], false, false, false, false⟩ =
      .ok (jstr "x\n", []) :=
  (claimC10.2.2 fs1 (jstr "f") (jstr "x\nx\n") false (by decide) (by decide)).trans
    (by decide)

/-! ## Counterexamples for the corrected claims -/

/-- C2 counterexample: the input `"a\n\nb"` contains one blank line, but
the Default Dedup output `"a\nb"` contains none — the newline collapse in
`updateTrailingNewlines` removes internal blank lines, so blank lines are
not retained in the final output. -/
theorem claimC2_counterexample :
    processContent (jstr "a\n\nb") false = jstr "a\nb" ∧
    (splitLF (jstr "a\n\nb")).count [] = 1 ∧
    (splitLF (processContent (jstr "a\n\nb") false)).count [] = 0 :=
  ⟨rfl, by decide, by decide⟩

/-- C3 counterexample: Default Dedup is not idempotent — on `"a\n\na"`
one application yields `"a\na"` (the blank-line collapse makes the two
`a` lines adjacent), and a second application yields `"a"`. -/
theorem claimC3_counterexample :
    processContent (jstr "a\n\na") false = jstr "a\na" ∧
    processContent (processContent (jstr "a\n\na") false) false = jstr "a" ∧
    processContent (processContent (jstr "a\n\na") false) false ≠
      processContent (jstr "a\n\na") false :=
  ⟨rfl, rfl, by decide⟩

/-- The C4 claim's keep rule, modelled from the claim's words: a line is
kept iff it is empty, or first, or differs from the preceding line, with
the equality test performed on the carriage-return-stripped forms of
*both* operands. -/
def claimKeepC4 (ic : Bool) (lines : List JStr) (line : JStr) (index : Nat) :
    Bool :=
  let cur := stripCR line
  if cur = [] then true
  else if index = 0 then true
  else
    let prev := stripCR (lines.getD (index - 1) [])
    if ic then decide (jsLower prev ≠ jsLower cur) else decide (prev ≠ cur)

/-- The keep rule as the code implements it, with the amended comparison:
the carriage-return-stripped *current* line is compared against the
immediately preceding line in its *original* (unstripped) form. -/
def amendedKeepC4 (ic : Bool) (lines : List JStr) (line : JStr) (index : Nat) :
    Bool :=
  let cur := stripCR line
  if cur = [] then true
  else if index = 0 then true
  else
    let prev := lines.getD (index - 1) []
    if ic then decide (jsLower prev ≠ jsLower cur) else decide (prev ≠ cur)

/-- C4 counterexample: on input `"a\r\na"` the code keeps both lines
(`"a\r" ≠ "a"` because the preceding line is not stripped), while the
claimed keep rule — which strips both operands — would drop the second
line. -/
theorem claimC4_counterexample :
    uniqueLinesOf (jstr "a\r\na") false = [jstr "a\r", jstr "a"] ∧
    filterWithIndex
      (fun line index => claimKeepC4 false (splitLF (jstr "a\r\na")) line index)
      (splitLF (jstr "a\r\na")) = [jstr "a\r"] ∧
    processContent (jstr "a\r\na") false = jstr "a\r\na" :=
  ⟨by decide, by decide, rfl⟩

/-- C5 counterexample: the input `"\n\r\n"` ends with a CR+LF (so with at
least one trailing line-feed), but the Default Dedup output is `"\n\n"`,
which ends with two line-feeds rather than exactly one: the final
trailing-match replacement turns the trailing `"\r\n"` into `"\n"` right
after a line-feed. -/
theorem claimC5_counterexample :
    1 ≤ getTrailingNewlinesCount (jstr "\n\r\n") ∧
    processContent (jstr "\n\r\n") false = jstr "\n\n" ∧
    trailingLFRun (processContent (jstr "\n\r\n") false) = 2 :=
  ⟨by decide, rfl, by decide⟩

/-- C6 counterexample: in repeated mode with neither a usable `filePath`
nor usable `content`, the call does not fail with the invalid-path error;
`getRawContent` silently resolves to the empty string and the call
returns `out = ""` with no warning. -/
theorem claimC6_counterexample :
    zuniq fs0 ⟨none, none, false, true, false, false⟩ = .ok ([], []) ∧
    zuniq fs0 ⟨none, none, false, true, false, false⟩ ≠ .error .invalidPath :=
  ⟨rfl, by decide⟩

/-! ## Lemmas about the indexed filter -/

theorem filterWithIndexAux_count_nil {p : JStr → Nat → Bool}
    (hp : ∀ i, p [] i = true) :
    ∀ (xs : List JStr) (i : Nat),
      (filterWithIndexAux p i xs).count ([] : JStr) = xs.count []
  | [], _ => rfl
  | x :: xs, i => by
    rcases eq_or_ne x ([] : JStr) with hx | hx
    · subst hx
      rw [filterWithIndexAux, if_pos (hp i)]
      simp [List.count_cons, filterWithIndexAux_count_nil hp xs (i + 1)]
    · rw [filterWithIndexAux]
      cases hpx : p x i
      · simp only [Bool.false_eq_true, if_false]
        rw [filterWithIndexAux_count_nil hp xs (i + 1)]
        simp [List.count_cons, hx]
      · simp only [if_true]
        simp [List.count_cons, hx, filterWithIndexAux_count_nil hp xs (i + 1)]

theorem filterWithIndexAux_congr {p q : JStr → Nat → Bool}
    (h : ∀ x i, p x i = q x i) :
    ∀ (xs : List JStr) (i : Nat),
      filterWithIndexAux p i xs = filterWithIndexAux q i xs
  | [], _ => rfl
  | x :: xs, i => by
    rw [filterWithIndexAux, filterWithIndexAux, h x i,
      filterWithIndexAux_congr h xs (i + 1)]

theorem filterWithIndexAux_sublist (p : JStr → Nat → Bool) :
    ∀ (xs : List JStr) (i : Nat), (filterWithIndexAux p i xs).Sublist xs
  | [], _ => List.Sublist.slnil
  | x :: xs, i => by
    rw [filterWithIndexAux]
    cases hpx : p x i
    · simp only [Bool.false_eq_true, if_false]
      exact (filterWithIndexAux_sublist p xs (i + 1)).cons x
    · simp only [if_true]
      exact (filterWithIndexAux_sublist p xs (i + 1)).cons₂ x

/-! ## Claim C2 (amended): blank lines survive the keep-filter stage -/

/-- C2 (amended): every blank line is retained by the duplicate-removal
filter — the kept-lines list has exactly as many empty lines as the
input's line list.  (It is the later newline collapse, not the filter,
that removes internal blank lines from the final output, as
`claimC2_counterexample` shows.) -/
theorem claimC2 (content : JStr) (ic : Bool) :
    (uniqueLinesOf content ic).count ([] : JStr) =
      (splitLF content).count [] := by
  unfold uniqueLinesOf filterWithIndex
  exact filterWithIndexAux_count_nil (fun i => rfl) (splitLF content) 0

/-! ## Claim C4 (amended): the keep rule, with one-sided CR stripping -/

/-- C4 (amended): a line is kept iff it is empty after carriage-return
stripping, or it is the first line, or its carriage-return-stripped form
differs (case-folded when `ignoreCase`) from the immediately preceding
line *in its original, unstripped form*; and kept lines are emitted in
their original form (the kept list is a sublist of the input lines), so
in particular non-adjacent duplicates are never removed. -/
theorem claimC4 (content : JStr) (ic : Bool) :
    uniqueLinesOf content ic =
      filterWithIndex
        (fun line index => amendedKeepC4 ic (splitLF content) line index)
        (splitLF content) ∧
    (uniqueLinesOf content ic).Sublist (splitLF content) := by
  constructor
  · unfold uniqueLinesOf filterWithIndex
    apply filterWithIndexAux_congr
    intro x i
    unfold keepLine amendedKeepC4 compareLineWithPreviousLine
    rcases eq_or_ne (stripCR x) ([] : JStr) with h0 | h0
    · simp [h0]
    · rcases eq_or_ne i 0 with hi | hi
      · cases ic <;> simp [h0, hi]
      · cases ic <;> simp [h0, hi]
  · unfold uniqueLinesOf filterWithIndex
    exact filterWithIndexAux_sublist _ (splitLF content) 0

/-! ## Claim C7: repeated-only mode (case-sensitive) -/

theorem lcLookup_lcBump (t : LineCount) (k l : JStr) :
    lcLookup (lcBump t k) l =
      if l = k then some ((lcLookup t l).getD 0 + 1) else lcLookup t l := by
  induction t with
  | nil =>
    rcases eq_or_ne l k with h | h
    · subst h; simp [lcBump, lcLookup]
    · simp [lcBump, lcLookup, h, Ne.symm h]
  | cons kv t ih =>
    obtain ⟨k', v⟩ := kv
    rcases eq_or_ne k' k with hk | hk
    · subst hk
      rcases eq_or_ne l k' with h | h
      · subst h; simp [lcBump, lcLookup]
      · simp [lcBump, lcLookup, h, Ne.symm h]
    · rcases eq_or_ne k' l with h | h
      · subst h
        simp [lcBump, lcLookup, hk]
      · simp [lcBump, lcLookup, hk, h, ih]

theorem lcLookup_foldl_bump :
    ∀ (ls : List JStr) (t : LineCount) (l : JStr),
      (lcLookup (ls.foldl lcBump t) l).getD 0 =
        (lcLookup t l).getD 0 + ls.count l
  | [], t, l => by simp
  | x :: ls, t, l => by
    rw [List.foldl_cons, lcLookup_foldl_bump ls (lcBump t x) l,
      lcLookup_lcBump]
    rcases eq_or_ne l x with h | h
    · subst h; simp [List.count_cons]; omega
    · simp [List.count_cons, h]

/-- The case-sensitive table looks up to the plain occurrence count. -/
theorem lcLookup_buildCaseSensitive (raw l : JStr) :
    (lcLookup (buildCaseSensitiveLineCount raw) l).getD 0 =
      (splitLF raw).count l := by
  have h := lcLookup_foldl_bump (splitLF raw) [] l
  simpa [buildCaseSensitiveLineCount, lcLookup] using h

/-- Modelled from the claim C7 wording: the lines whose total occurrence
count in the resolved input exceeds one, listed once each in order of
first occurrence and joined with line-feeds (no trailing-newline
restoration). -/
def specRepeatedOut (raw : JStr) : JStr :=
  let lines := splitLF raw
  joinLF (dedupFirst (lines.filter (fun l => decide (1 < lines.count l))))

/-- C7: in repeated-only mode with `count = false` and
`ignoreCase = false`, whenever input resolution succeeds with raw text
`raw`, the output is exactly the lines occurring more than once in
`raw`, once each in order of first occurrence, joined by line-feeds with
no trailing-newline restoration. -/
theorem claimC7 (fs : FileSystem) (o : ZOpts) (raw : JStr) (w : List ZWarn)
    (hrep : o.repeated = true) (huni : o.unique = false)
    (hcnt : o.count = false) (hic : o.ignoreCase = false)
    (hraw : getRawContent fs o.filePath o.content = .ok (raw, w)) :
    zuniq fs o = .ok (specRepeatedOut raw, w) := by
  rw [zuniq]
  simp only [hrep, huni, Bool.and_false, Bool.false_eq_true, if_false, if_true]
  rw [processRepeatedLines, hraw]
  simp only [hic, hcnt, Bool.false_eq_true, if_false]
  unfold specRepeatedOut
  simp only [buildLinesCount, Bool.false_eq_true, if_false]
  have hfil : (splitLF raw).filter
      (fun l =>
        decide (1 < (lcLookup (buildCaseSensitiveLineCount raw) l).getD 0)) =
      (splitLF raw).filter (fun l => decide (1 < (splitLF raw).count l)) := by
    apply List.filter_congr
    intro x _
    rw [lcLookup_buildCaseSensitive]
  rw [hfil]

/-- Witness for C7: Scenario B, input `"a\na\nb\nb\nb\n"` yields
`"a\nb"` with no trailing newline and the fallback warning. -/
theorem claimC7_witness :
    zuniq fs0 ⟨none, some (jstr "a\na\nb\nb\nb\n"), false, true, false, false⟩ =
      .ok (jstr "a\nb", [.invalidPathFallback]) :=
  (claimC7 fs0 ⟨none, some (jstr "a\na\nb\nb\nb\n"), false, true, false, false⟩
    (jstr "a\na\nb\nb\nb\n") [.invalidPathFallback] rfl rfl rfl rfl
    (by decide)).trans (by decide)

/-! ## Claim C6 (amended): input resolution across all modes -/

theorem getRawContent_fallback (fs : FileSystem) (fp c : Option JStr)
    (hex : fsExistsOpt fs fp = false) (htc : jsTruthy c = true) :
    getRawContent fs fp c = .ok (c.getD [], [.invalidPathFallback]) := by
  simp [getRawContent, hex, htc]

theorem getRawContent_read (fs : FileSystem) (fp c : Option JStr)
    (hex : fsExistsOpt fs fp = true) (htc : jsTruthy c = false) :
    getRawContent fs fp c = .ok ((fp.bind (fsRead fs)).getD [], []) := by
  simp [getRawContent, hex, htc]

/-- A falsy `filePath` (absent, or the empty string) never exists. -/
theorem fsExistsOpt_of_falsy (fs : FileSystem) (fp : Option JStr)
    (h : jsTruthy fp = false) : fsExistsOpt fs fp = false := by
  cases fp with
  | none => rfl
  | some p =>
    simp [jsTruthy] at h
    subst h
    simp [fsExistsOpt, fsRead]

/-- `processRepeatedLines` is resolution followed by the pure repeated
pipeline. -/
theorem processRepeatedLines_eq (fs : FileSystem) (fp c : Option JStr)
    (cnt ic : Bool) :
    processRepeatedLines fs fp c cnt ic =
      match getRawContent fs fp c with
      | .error e => .error e
      | .ok (raw, w) => .ok (repeatedPipeline raw cnt ic, w) := by
  cases h : getRawContent fs fp c with
  | error e => simp [processRepeatedLines, h]
  | ok p =>
    obtain ⟨raw, w⟩ := p
    simp only [processRepeatedLines, repeatedPipeline, h]
    cases ic <;> cases cnt <;> simp

/-- C6 (amended): outside the mode-conflict case, input resolution obeys
the uniform rule in *both* modes and for every `count`/`ignoreCase` for:
existing truthy path plus truthy content (conflicting-inputs error),
truthy nonexistent path plus truthy content (fallback warning, content
used), content only (content used; a fallback warning appears exactly
when repeated mode or the count pass re-resolves), existing path with no
usable content (file read, no warning); and neither-usable fails with
the invalid-path error in Default Dedup mode — but in repeated mode
neither-usable does *not* fail: it resolves to empty raw content and
returns successfully (`out = ""`, or `"1 "` when `count`). -/
theorem claimC6 (fs : FileSystem) (o : ZOpts)
    (hmc : ¬(o.repeated = true ∧ o.unique = true)) :
    (jsTruthy o.filePath = true → fsExistsOpt fs o.filePath = true →
      jsTruthy o.content = true → zuniq fs o = .error .conflictingInputs) ∧
    (o.repeated = false → jsTruthy o.content = false →
      fsExistsOpt fs o.filePath = false → zuniq fs o = .error .invalidPath) ∧
    (o.repeated = true → jsTruthy o.content = false →
      fsExistsOpt fs o.filePath = false →
      zuniq fs o = .ok (if o.count then jstr "1 " else [], [])) ∧
    (jsTruthy o.filePath = true → fsExistsOpt fs o.filePath = false →
      jsTruthy o.content = true →
      zuniq fs o = .ok
        (resolvedOutput o.repeated (o.content.getD []) o.count o.ignoreCase,
          if o.repeated then [.invalidPathFallback]
          else .invalidPathFallback ::
            (if o.count then [.invalidPathFallback] else []))) ∧
    (jsTruthy o.filePath = false → jsTruthy o.content = true →
      zuniq fs o = .ok
        (resolvedOutput o.repeated (o.content.getD []) o.count o.ignoreCase,
          if o.repeated || o.count then [.invalidPathFallback] else [])) ∧
    (jsTruthy o.content = false → fsExistsOpt fs o.filePath = true →
      zuniq fs o = .ok
        (resolvedOutput o.repeated ((o.filePath.bind (fsRead fs)).getD [])
          o.count o.ignoreCase, [])) := by
  obtain ⟨fp, c, cnt, rep, unq, ic⟩ := o
  refine ⟨?_, ?_, ?_, ?_, ?_, ?_⟩
  · intro htf hex htc
    cases rep <;> cases unq <;>
      simp_all [zuniq, processRepeatedLines, getRawContent]
  · intro hrep htc hex
    subst hrep
    simp_all [zuniq]
  · intro hrep htc hex
    subst hrep
    cases unq
    · cases cnt <;> cases ic <;>
        simp_all [zuniq, processRepeatedLines, getRawContent] <;> rfl
    · exact absurd ⟨rfl, rfl⟩ hmc
  · intro htf hex htc
    cases rep
    · cases cnt <;>
        simp [zuniq, htf, htc, hex, getRawContent_fallback fs fp c hex htc,
          resolvedOutput, defaultPipeline]
    · cases unq
      · simp [zuniq, processRepeatedLines_eq,
          getRawContent_fallback fs fp c hex htc, resolvedOutput]
      · exact absurd ⟨rfl, rfl⟩ hmc
  · intro htf htc
    have hex := fsExistsOpt_of_falsy fs fp htf
    cases rep
    · cases cnt <;>
        simp [zuniq, htf, htc, hex, getRawContent_fallback fs fp c hex htc,
          resolvedOutput, defaultPipeline]
    · cases unq
      · simp [zuniq, processRepeatedLines_eq,
          getRawContent_fallback fs fp c hex htc, resolvedOutput]
      · exact absurd ⟨rfl, rfl⟩ hmc
  · intro htc hex
    cases rep
    · cases cnt <;>
        simp [zuniq, htc, hex, getRawContent_read fs fp c hex htc,
          resolvedOutput, defaultPipeline]
    · cases unq
      · simp [zuniq, processRepeatedLines_eq,
          getRawContent_read fs fp c hex htc, resolvedOutput]
      · exact absurd ⟨rfl, rfl⟩ hmc

/-- Witness for C6: an existing path together with content is rejected
with the conflicting-inputs error; and a repeated-mode invocation with
`count = true` and a nonexistent path falls back to the content with a
warning, yielding `"2 b"` for content `"b\nb\n"`. -/
theorem claimC6_witness :
    zuniq fs1 ⟨some (jstr "f"), some (jstr "z\n"), false, false, false, false⟩ =
      .error .conflictingInputs ∧
    zuniq fs0 ⟨some (jstr "nope"), some (jstr "b\nb\n"), true, true, false,
        false⟩ =
      .ok (jstr "2 b", [.invalidPathFallback]) :=
  ⟨(claimC6 fs1
      ⟨some (jstr "f"), some (jstr "z\n"), false, false, false, false⟩
      (by decide)).1 (by decide) (by decide) (by decide),
    ((claimC6 fs0
      ⟨some (jstr "nope"), some (jstr "b\nb\n"), true, true, false, false⟩
      (by decide)).2.2.2.1 (by decide) (by decide) (by decide)).trans
      (by decide)⟩

/-! ## String-structure lemma pool (for C3 and C5) -/

theorem splitLF_ne_nil (s : JStr) : splitLF s ≠ [] := by
  cases s with
  | nil => simp [splitLF]
  | cons c cs =>
    rw [splitLF]
    by_cases hc : c = '\n'
    · simp [hc]
    · simp only [hc, if_false]
      cases splitLF cs <;> simp

theorem splitLF_cons_LF (cs : JStr) : splitLF ('\n' :: cs) = [] :: splitLF cs := by
  rw [splitLF]; simp

theorem splitLF_append_cons (l : JStr) (r : JStr) (hl : '\n' ∉ l) :
    splitLF (l ++ '\n' :: r) = l :: splitLF r := by
  induction l with
  | nil => simpa using splitLF_cons_LF r
  | cons c l ih =>
    have hc : c ≠ '\n' := fun h => hl (h ▸ List.mem_cons_self c l)
    have hl' : '\n' ∉ l := fun h => hl (List.mem_cons_of_mem c h)
    rw [List.cons_append, splitLF]
    simp only [hc, if_false]
    rw [ih hl']

theorem splitLF_no_LF_self (l : JStr) (hl : '\n' ∉ l) : splitLF l = [l] := by
  induction l with
  | nil => rfl
  | cons c l ih =>
    have hc : c ≠ '\n' := fun h => hl (h ▸ List.mem_cons_self c l)
    have hl' : '\n' ∉ l := fun h => hl (List.mem_cons_of_mem c h)
    rw [splitLF]
    simp only [hc, if_false]
    rw [ih hl']

theorem splitLF_append_LF (x : JStr) : splitLF (x ++ ['\n']) = splitLF x ++ [[]] := by
  induction x with
  | nil => rfl
  | cons c x ih =>
    by_cases hc : c = '\n'
    · subst hc
      rw [List.cons_append, splitLF_cons_LF, splitLF_cons_LF, ih,
        List.cons_append]
    · rw [List.cons_append, splitLF]
      simp only [hc, if_false]
      rw [ih, splitLF]
      simp only [hc, if_false]
      cases hsx : splitLF x with
      | nil => exact absurd hsx (splitLF_ne_nil x)
      | cons h t => simp

theorem mem_of_mem_splitLF :
    ∀ (s l : JStr), l ∈ splitLF s → ∀ c ∈ l, c ∈ s
  | [], l, hl, c, hc => by
    simp [splitLF] at hl
    subst hl
    simp at hc
  | a :: cs, l, hl, c, hc => by
    by_cases ha : a = '\n'
    · subst ha
      rw [splitLF_cons_LF] at hl
      rcases List.mem_cons.1 hl with h | h
      · subst h; simp at hc
      · exact List.mem_cons_of_mem _ (mem_of_mem_splitLF cs l h c hc)
    · rw [splitLF] at hl
      simp only [ha, if_false] at hl
      cases hsx : splitLF cs with
      | nil => exact absurd hsx (splitLF_ne_nil cs)
      | cons h t =>
        rw [hsx] at hl
        rcases List.mem_cons.1 hl with h1 | h1
        · subst h1
          rcases List.mem_cons.1 hc with h2 | h2
          · exact h2 ▸ List.mem_cons_self a cs
          · refine List.mem_cons_of_mem _ ?_
            exact mem_of_mem_splitLF cs h (hsx ▸ List.mem_cons_self h t) c h2
        · refine List.mem_cons_of_mem _ ?_
          exact mem_of_mem_splitLF cs l (hsx ▸ List.mem_cons_of_mem h h1) c hc

theorem joinLF_cons (l : JStr) (ls : List JStr) (h : ls ≠ []) :
    joinLF (l :: ls) = l ++ '\n' :: joinLF ls := by
  cases ls with
  | nil => exact absurd rfl h
  | cons l' ls => rfl

theorem joinLF_append_nil :
    ∀ (ds : List JStr), ds ≠ [] → joinLF (ds ++ [[]]) = joinLF ds ++ ['\n']
  | [], h => absurd rfl h
  | [d], _ => rfl
  | d :: d' :: ds, _ => by
    rw [List.cons_append, joinLF_cons d ((d' :: ds) ++ [[]]) (by simp),
      joinLF_append_nil (d' :: ds) (by simp),
      joinLF_cons d (d' :: ds) (by simp)]
    simp

theorem joinLF_ne_nil (d : JStr) (ds : List JStr) (hd : d ≠ []) :
    joinLF (d :: ds) ≠ [] := by
  cases ds with
  | nil => exact hd
  | cons d' ds => simp [joinLF_cons d (d' :: ds) (by simp), hd]

theorem joinLF_head (d : JStr) (ds : List JStr) (hd : d ≠ []) :
    (joinLF (d :: ds)).head? = d.head? := by
  cases ds with
  | nil => rfl
  | cons d' ds =>
    rw [joinLF_cons d (d' :: ds) (by simp)]
    cases d with
    | nil => exact absurd rfl hd
    | cons c t => rfl

theorem getLast_mem' {α : Type} : ∀ (l : List α) (c : α), l.getLast? = some c → c ∈ l
  | [], c, h => by simp at h
  | [a], c, h => by
    simp [List.getLast?] at h
    simp [h]
  | a :: b :: t, c, h => by
    rw [List.getLast?_cons_cons] at h
    exact List.mem_cons_of_mem a (getLast_mem' (b :: t) c h)

theorem getLast?_cons_ne {α : Type} (a : α) (t : List α) (h : t ≠ []) :
    (a :: t).getLast? = t.getLast? := by
  cases t with
  | nil => exact absurd rfl h
  | cons b t' => exact List.getLast?_cons_cons

theorem getLast?_append_right {α : Type} :
    ∀ (a b : List α), b ≠ [] → (a ++ b).getLast? = b.getLast?
  | [], b, _ => rfl
  | c :: a', b, hb => by
    rw [List.cons_append,
      getLast?_cons_ne c (a' ++ b) (by simp [hb]),
      getLast?_append_right a' b hb]

theorem joinLF_getLast :
    ∀ (ds : List JStr) (d' : JStr), (∀ l ∈ ds, l ≠ []) →
      ds.getLast? = some d' → (joinLF ds).getLast? = d'.getLast?
  | [], d', _, h => by simp at h
  | [d], d', _, h => by
    simp [List.getLast?] at h
    subst h
    rfl
  | d :: d'' :: ds, d', hne, h => by
    rw [List.getLast?_cons_cons] at h
    rw [joinLF_cons d (d'' :: ds) (by simp),
      getLast?_append_right d ('\n' :: joinLF (d'' :: ds)) (by simp),
      getLast?_cons_ne '\n' (joinLF (d'' :: ds))
        (joinLF_ne_nil d'' ds (hne d'' (by simp)))]
    exact joinLF_getLast (d'' :: ds) d' (fun l hl => hne l (List.mem_cons_of_mem d hl)) h

theorem mem_joinLF :
    ∀ (ds : List JStr) (c : Char), c ∈ joinLF ds →
      (∃ l, l ∈ ds ∧ c ∈ l) ∨ c = '\n'
  | [], c, h => by simp [joinLF] at h
  | [l], c, h => Or.inl ⟨l, by simp, h⟩
  | l :: l' :: ds, c, h => by
    rw [joinLF_cons l (l' :: ds) (by simp)] at h
    rcases List.mem_append.1 h with h1 | h1
    · exact Or.inl ⟨l, by simp, h1⟩
    · rcases List.mem_cons.1 h1 with h2 | h2
      · exact Or.inr h2
      · rcases mem_joinLF (l' :: ds) c h2 with ⟨m, hm, hcm⟩ | h3
        · exact Or.inl ⟨m, List.mem_cons_of_mem l hm, hcm⟩
        · exact Or.inr h3

/-! ## Collapse and no-adjacent-line-feed lemmas -/

/-- No two adjacent characters are both line-feeds. -/
def noLFLF : JStr → Prop
  | [] => True
  | [_] => True
  | a :: b :: t => ¬(a = '\n' ∧ b = '\n') ∧ noLFLF (b :: t)

theorem noLFLF_cons (c : Char) (r : JStr)
    (h1 : ∀ hd, r.head? = some hd → ¬(c = '\n' ∧ hd = '\n'))
    (h2 : noLFLF r) : noLFLF (c :: r) := by
  cases r with
  | nil => trivial
  | cons b t => exact ⟨h1 b rfl, h2⟩

theorem noLFLF_append_left :
    ∀ (l : JStr) (r : JStr), (∀ c ∈ l, c ≠ '\n') → noLFLF r →
      noLFLF (l ++ r)
  | [], r, _, hr => hr
  | c :: l, r, hl, hr => by
    rw [List.cons_append]
    refine noLFLF_cons c (l ++ r) (fun hd _ h => ?_) ?_
    · exact hl c (List.mem_cons_self c l) h.1
    · exact noLFLF_append_left l r (fun d hd => hl d (List.mem_cons_of_mem c hd)) hr

theorem noLFLF_getLast_ne :
    ∀ u : JStr, noLFLF (u ++ ['\n']) → u.getLast? ≠ some '\n'
  | [], _, h => by simp at h
  | [a], hn, h => by
    simp [List.getLast?] at h
    exact hn.1 ⟨h.symm ▸ rfl, rfl⟩
  | a :: b :: u, hn, h => by
    rw [List.getLast?_cons_cons] at h
    exact noLFLF_getLast_ne (b :: u) hn.2 h

theorem collapseLF_ne_nil : ∀ s : JStr, s ≠ [] → collapseLF s ≠ []
  | [], h => absurd rfl h
  | [c], _ => by simp [collapseLF]
  | a :: b :: t, _ => by
    rw [collapseLF]
    split
    · exact collapseLF_ne_nil (b :: t) (by simp)
    · simp

theorem collapseLF_head : ∀ (a : Char) (t : JStr),
    (collapseLF (a :: t)).head? = some a
  | _, [] => rfl
  | a, b :: t => by
    rw [collapseLF]
    split
    · next h => rw [collapseLF_head b t, h.1, h.2]
    · rfl

theorem collapseLF_getLast : ∀ s : JStr, (collapseLF s).getLast? = s.getLast?
  | [] => rfl
  | [_] => rfl
  | a :: b :: t => by
    rw [collapseLF]
    split
    · rw [collapseLF_getLast (b :: t), List.getLast?_cons_cons]
    · rw [getLast?_cons_ne a (collapseLF (b :: t))
        (collapseLF_ne_nil (b :: t) (by simp)),
        collapseLF_getLast (b :: t), List.getLast?_cons_cons]

theorem collapseLF_subset : ∀ (s : JStr) (c : Char), c ∈ collapseLF s → c ∈ s
  | [], _, h => h
  | [_], _, h => h
  | a :: b :: t, c, h => by
    rw [collapseLF] at h
    split at h
    · exact List.mem_cons_of_mem a (collapseLF_subset (b :: t) c h)
    · rcases List.mem_cons.1 h with h1 | h1
      · exact h1 ▸ List.mem_cons_self a (b :: t)
      · exact List.mem_cons_of_mem a (collapseLF_subset (b :: t) c h1)

theorem collapseLF_noLFLF : ∀ s : JStr, noLFLF (collapseLF s)
  | [] => trivial
  | [_] => trivial
  | a :: b :: t => by
    rw [collapseLF]
    split
    · exact collapseLF_noLFLF (b :: t)
    · next hab =>
      refine noLFLF_cons a (collapseLF (b :: t)) (fun hd hhd h => ?_)
        (collapseLF_noLFLF (b :: t))
      rw [collapseLF_head b t] at hhd
      exact hab ⟨h.1, (Option.some.inj hhd) ▸ h.2⟩

theorem collapseLF_eq_self : ∀ s : JStr, noLFLF s → collapseLF s = s
  | [], _ => rfl
  | [_], _ => rfl
  | a :: b :: t, h => by
    rw [collapseLF, if_neg h.1, collapseLF_eq_self (b :: t) h.2]

/-! ## Trailing-newline lemmas -/

theorem takeWhileLF_nil (l : JStr)
    (h : ∀ c, l.head? = some c → c ≠ '\n') :
    l.takeWhile (fun c => c = '\n') = [] := by
  cases l with
  | nil => rfl
  | cons c t =>
    rw [List.takeWhile_cons]
    simp [h c rfl]

theorem gtnc_append_LF (u : JStr) (h1 : u.getLast? ≠ some '\n')
    (h2 : u.getLast? ≠ some '\r') :
    getTrailingNewlinesCount (u ++ ['\n']) = 1 := by
  have hrev : (u ++ ['\n']).reverse = '\n' :: u.reverse := by simp
  have htw : u.reverse.takeWhile (fun c => c = '\n') = [] := by
    refine takeWhileLF_nil _ (fun c hc => ?_)
    rw [List.head?_reverse] at hc
    exact fun h => h1 (h ▸ hc)
  have hhd : u.reverse.head? ≠ some '\r' := by
    rw [List.head?_reverse]
    exact h2
  simp only [getTrailingNewlinesCount, hrev, List.takeWhile_cons]
  simp only [decide_True, if_true, htw]
  have hdrop : ('\n' :: u.reverse).drop 1 = u.reverse := rfl
  simp [hdrop, hhd, h2]

theorem trailingLFRun_append_LF (u : JStr) (h1 : u.getLast? ≠ some '\n') :
    trailingLFRun (u ++ ['\n']) = 1 := by
  unfold trailingLFRun
  have hrev : (u ++ ['\n']).reverse = '\n' :: u.reverse := by simp
  have htw : u.reverse.takeWhile (fun c => c = '\n') = [] := by
    refine takeWhileLF_nil _ (fun c hc => ?_)
    rw [List.head?_reverse] at hc
    exact fun h => h1 (h ▸ hc)
  rw [hrev, List.takeWhile_cons]
  simp [htw]

theorem take_append_single {α : Type} :
    ∀ (u : List α) (c : α), (u ++ [c]).take u.length = u
  | [], _ => rfl
  | a :: u, c => by
    rw [List.cons_append, List.length_cons, List.take_succ_cons,
      take_append_single u c]

theorem replaceTrailing_append_LF (u : JStr) (h1 : u.getLast? ≠ some '\n')
    (h2 : u.getLast? ≠ some '\r') :
    replaceTrailingNewlines (u ++ ['\n']) = u ++ ['\n'] := by
  unfold replaceTrailingNewlines
  rw [gtnc_append_LF u h1 h2]
  simp only [Nat.one_ne_zero, if_false]
  have hlen : (u ++ ['\n']).length - 1 = u.length := by simp
  rw [hlen, take_append_single]

theorem gtnc_pos_append (x : JStr) :
    1 ≤ getTrailingNewlinesCount (x ++ ['\n']) := by
  have hrev : (x ++ ['\n']).reverse = '\n' :: x.reverse := by simp
  simp only [getTrailingNewlinesCount, hrev, List.takeWhile_cons]
  simp only [decide_True, if_true, List.length_cons]
  split
  · omega
  · split <;> omega

theorem gtnc_eq_zero (s : JStr) (h : s.getLast? ≠ some '\n') :
    getTrailingNewlinesCount s = 0 := by
  unfold getTrailingNewlinesCount
  have htw : s.reverse.takeWhile (fun c => c = '\n') = [] := by
    refine takeWhileLF_nil _ (fun c hc => ?_)
    rw [List.head?_reverse] at hc
    exact fun hh => h (hh ▸ hc)
  simp [htw]

theorem head?_dropWhile_false {α : Type} (p : α → Bool) :
    ∀ (l : List α) (c : α), (l.dropWhile p).head? = some c → p c = false
  | [], c, h => by simp at h
  | a :: t, c, h => by
    rw [List.dropWhile_cons] at h
    split at h
    · exact head?_dropWhile_false p t c h
    · next hpa =>
      cases Option.some.inj h
      exact Bool.eq_false_iff.2 hpa

theorem trimEnd_noTrailingWS (s : JStr) :
    ∀ c, (trimEnd s).getLast? = some c → isJSWhitespace c = false := by
  intro c hc
  unfold trimEnd at hc
  rw [List.getLast?_reverse] at hc
  exact head?_dropWhile_false isJSWhitespace s.reverse c hc

/-! ## Keep-filter structural lemmas -/

theorem keepLine_nil (lines : List JStr) (ic : Bool) (i : Nat) :
    keepLine lines ic [] i = true := rfl

theorem keepLine_zero (lines : List JStr) (ic : Bool) (line : JStr) :
    keepLine lines ic line 0 = true := by
  simp only [keepLine]
  split
  · rfl
  · unfold compareLineWithPreviousLine
    cases ic <;> simp

theorem filterWithIndexAux_append_nil {p : JStr → Nat → Bool}
    (hp : ∀ i, p [] i = true) :
    ∀ (ys : List JStr) (i : Nat),
      filterWithIndexAux p i (ys ++ [[]]) = filterWithIndexAux p i ys ++ [[]]
  | [], i => by
    simp [filterWithIndexAux, hp i]
  | y :: ys, i => by
    rw [List.cons_append, filterWithIndexAux, filterWithIndexAux]
    cases hp' : p y i <;>
      simp [filterWithIndexAux_append_nil hp ys (i + 1)]

/-! ## Claim C5 (amended): trailing-newline shape -/

/-- C5 (amended): for carriage-return-free input ending in at least one
line-feed, the Default Dedup output ends with exactly one line-feed; and
for any input with no trailing line-feed the output has no trailing
whitespace at all.  (With carriage returns in play the first half can
fail: see `claimC5_counterexample`.) -/
theorem claimC5 (ic : Bool) :
    (∀ x : JStr, '\r' ∉ x →
      trailingLFRun (processContent (x ++ ['\n']) ic) = 1) ∧
    (∀ s : JStr, s.getLast? ≠ some '\n' →
      ∀ c, (processContent s ic).getLast? = some c →
        isJSWhitespace c = false) := by
  constructor
  · intro x hx
    have hsplit : splitLF (x ++ ['\n']) = splitLF x ++ [[]] :=
      splitLF_append_LF x
    have hkeep : uniqueLinesOf (x ++ ['\n']) ic =
        filterWithIndexAux (keepLine (splitLF x ++ [[]]) ic) 0 (splitLF x) ++
          [[]] := by
      unfold uniqueLinesOf filterWithIndex
      rw [hsplit]
      exact filterWithIndexAux_append_nil (fun i => keepLine_nil _ ic i) _ 0
    set K := filterWithIndexAux (keepLine (splitLF x ++ [[]]) ic) 0 (splitLF x)
      with hK
    have hKne : K ≠ [] := by
      cases hsx : splitLF x with
      | nil => exact absurd hsx (splitLF_ne_nil x)
      | cons h t =>
        rw [hK, hsx, filterWithIndexAux, if_pos (keepLine_zero _ ic h)]
        simp
    have htc : 1 ≤ getTrailingNewlinesCount (x ++ ['\n']) := gtnc_pos_append x
    have hpc : processContent (x ++ ['\n']) ic =
        replaceTrailingNewlines (collapseLF (joinLF K ++ ['\n'])) := by
      unfold processContent
      rw [hkeep, joinLF_append_nil K hKne]
      simp only [updateTrailingNewlines]
      rw [if_pos htc]
    set z := collapseLF (joinLF K ++ ['\n']) with hz
    have hzlast : z.getLast? = some '\n' := by
      rw [hz, collapseLF_getLast,
        getLast?_append_right _ ['\n'] (by simp)]
      rfl
    have hzne : z ≠ [] := by
      intro h
      rw [h] at hzlast
      simp at hzlast
    have hznoLFLF : noLFLF z := collapseLF_noLFLF _
    have hzr : '\r' ∉ z := by
      intro hmem
      have hmem2 : '\r' ∈ joinLF K ++ ['\n'] := collapseLF_subset _ _ hmem
      rcases List.mem_append.1 hmem2 with hm | hm
      · rcases mem_joinLF K '\r' hm with ⟨l, hlK, hcl⟩ | hEq
        · have hlx : l ∈ splitLF x :=
            (filterWithIndexAux_sublist _ (splitLF x) 0).subset hlK
          exact hx (mem_of_mem_splitLF x l hlx '\r' hcl)
        · exact absurd hEq (by decide)
      · simp at hm
    have hgl : z.getLast hzne = '\n' := by
      have h := List.getLast?_eq_getLast z hzne
      rw [h] at hzlast
      exact Option.some.inj hzlast
    have hz' : z.dropLast ++ ['\n'] = z := by
      have h1 := List.dropLast_append_getLast hzne
      rw [hgl] at h1
      exact h1
    have hu1 : z.dropLast.getLast? ≠ some '\n' := by
      refine noLFLF_getLast_ne z.dropLast ?_
      rw [hz']
      exact hznoLFLF
    have hu2 : z.dropLast.getLast? ≠ some '\r' := by
      intro h
      have hmem : '\r' ∈ z.dropLast := getLast_mem' _ _ h
      exact hzr ((List.dropLast_sublist z).subset hmem)
    rw [hpc, ← hz', replaceTrailing_append_LF _ hu1 hu2]
    exact trailingLFRun_append_LF _ hu1
  · intro s hs c hc
    have h0 : getTrailingNewlinesCount s = 0 := gtnc_eq_zero s hs
    unfold processContent at hc
    rw [h0] at hc
    simp only [updateTrailingNewlines] at hc
    rw [if_neg (by omega)] at hc
    exact trimEnd_noTrailingWS _ c hc

/-- Witness for C5 at concrete inputs: `"a\n"` keeps exactly one trailing
line-feed, and the output on `"a"` has a non-whitespace last character. -/
theorem claimC5_witness :
    trailingLFRun (processContent (jstr "a" ++ ['\n']) false) = 1 ∧
    isJSWhitespace 'a' = false :=
  ⟨(claimC5 false).1 (jstr "a") (by decide),
    (claimC5 false).2 (jstr "a") (by decide) 'a' (by decide)⟩

/-! ## Adjacent deduplication as a recursion (for C3) -/

/-- The comparison key of the adjacency test: the line itself, or its
lower-cased form when `ignoreCase`. -/
def foldCase (ic : Bool) (l : JStr) : JStr := if ic then jsLower l else l

/-- Adjacent-duplicate removal, always comparing against the *original*
previous element (dropped elements still become the new predecessor),
exactly as the indexed filter in `processContent` does. -/
def keepAdjBy (f : JStr → JStr) : JStr → List JStr → List JStr
  | _, [] => []
  | prev, l :: rest =>
    if f prev = f l then keepAdjBy f l rest else l :: keepAdjBy f l rest

/-- No two adjacent elements share an `f`-key. -/
def noAdjDupBy (f : JStr → JStr) : List JStr → Prop
  | [] => True
  | [_] => True
  | a :: b :: t => f a ≠ f b ∧ noAdjDupBy f (b :: t)

theorem noAdjDupBy_congr_head (f : JStr → JStr) (a b : JStr) (X : List JStr)
    (h : f a = f b) : noAdjDupBy f (a :: X) → noAdjDupBy f (b :: X) := by
  cases X with
  | nil => intro _; trivial
  | cons x X => exact fun hx => ⟨h ▸ hx.1, hx.2⟩

theorem keepAdjBy_noAdjDup (f : JStr → JStr) :
    ∀ (rest : List JStr) (prev : JStr),
      noAdjDupBy f (prev :: keepAdjBy f prev rest)
  | [], _ => trivial
  | l :: rest, prev => by
    rw [keepAdjBy]
    by_cases h : f prev = f l
    · rw [if_pos h]
      exact noAdjDupBy_congr_head f l prev _ h.symm (keepAdjBy_noAdjDup f rest l)
    · rw [if_neg h]
      exact ⟨h, keepAdjBy_noAdjDup f rest l⟩

theorem keepAdjBy_of_noAdjDup (f : JStr → JStr) :
    ∀ (rest : List JStr) (prev : JStr),
      noAdjDupBy f (prev :: rest) → keepAdjBy f prev rest = rest
  | [], _, _ => rfl
  | l :: rest, prev, h => by
    rw [keepAdjBy, if_neg h.1, keepAdjBy_of_noAdjDup f rest l h.2]

theorem keepAdjBy_subset (f : JStr → JStr) :
    ∀ (rest : List JStr) (prev l : JStr), l ∈ keepAdjBy f prev rest → l ∈ rest
  | [], _, _, h => absurd h (by simp [keepAdjBy])
  | x :: rest, prev, l, h => by
    rw [keepAdjBy] at h
    split at h
    · exact List.mem_cons_of_mem x (keepAdjBy_subset f rest x l h)
    · rcases List.mem_cons.1 h with h1 | h1
      · exact h1 ▸ List.mem_cons_self x rest
      · exact List.mem_cons_of_mem x (keepAdjBy_subset f rest x l h1)

theorem stripCR_eq_self (l : JStr) (h : '\r' ∉ l) : stripCR l = l := by
  unfold stripCR
  rw [List.filter_eq_self]
  intro a ha
  simp
  exact fun he => h (he ▸ ha)

/-- For a nonempty carriage-return-free line at a positive index, the keep
predicate reduces to a plain `f`-key inequality against the original
previous line. -/
theorem keepLine_eq_foldCase (L : List JStr) (ic : Bool) (l : JStr) (i : Nat)
    (hi : 1 ≤ i) (hl : l ≠ []) (hr : '\r' ∉ l) :
    keepLine L ic l i =
      !(decide (foldCase ic (L.getD (i - 1) []) = foldCase ic l)) := by
  have hstrip : stripCR l = l := stripCR_eq_self l hr
  simp only [keepLine, hstrip]
  rw [if_neg hl]
  unfold compareLineWithPreviousLine
  have h0 : decide (i = 0) = false := by
    simp
    omega
  cases ic
  · simp only [Bool.false_eq_true, if_false, h0, Bool.false_or, foldCase]
    simp [decide_not]
  · simp only [if_true, h0, Bool.false_or, foldCase]
    simp [decide_not]

theorem getD_of_drop_cons {α : Type} :
    ∀ (L : List α) (i : Nat) (x : α) (t : List α) (d : α),
      L.drop i = x :: t → L.getD i d = x
  | L, 0, x, t, d, h => by
    rw [List.drop_zero] at h
    rw [h]
    rfl
  | [], i + 1, x, t, d, h => by simp at h
  | a :: L, i + 1, x, t, d, h => by
    rw [List.drop_succ_cons] at h
    exact getD_of_drop_cons L i x t d h

theorem drop_succ_of_drop_cons {α : Type} :
    ∀ (L : List α) (i : Nat) (x : α) (t : List α),
      L.drop i = x :: t → L.drop (i + 1) = t
  | L, 0, x, t, h => by
    rw [List.drop_zero] at h
    rw [h]
    rfl
  | [], i + 1, x, t, h => by simp at h
  | a :: L, i + 1, x, t, h => by
    rw [List.drop_succ_cons] at h
    rw [List.drop_succ_cons]
    exact drop_succ_of_drop_cons L i x t h

/-- The indexed keep-filter, run from index `i ≥ 1` over the remaining
lines `rest ++ [""]` (all of `rest` nonempty and carriage-return-free),
is adjacent deduplication against the original predecessor. -/
theorem filterAux_eq_keepAdj (ic : Bool) (L : List JStr) :
    ∀ (rest : List JStr) (i : Nat), 1 ≤ i →
      L.drop i = rest ++ [[]] →
      (∀ l ∈ rest, l ≠ [] ∧ '\r' ∉ l) →
      filterWithIndexAux (keepLine L ic) i (rest ++ [[]]) =
        keepAdjBy (foldCase ic) (L.getD (i - 1) []) rest ++ [[]]
  | [], i, _, _, _ => by
    simp [filterWithIndexAux, keepLine_nil, keepAdjBy]
  | l :: rest, i, hi, hdrop, hels => by
    have hl := hels l (List.mem_cons_self l rest)
    rw [List.cons_append] at hdrop
    have hgetd : L.getD i [] = l := getD_of_drop_cons L i l (rest ++ [[]]) [] hdrop
    have hdrop' : L.drop (i + 1) = rest ++ [[]] :=
      drop_succ_of_drop_cons L i l (rest ++ [[]]) hdrop
    have hrec := filterAux_eq_keepAdj ic L rest (i + 1) (by omega) hdrop'
      (fun m hm => hels m (List.mem_cons_of_mem l hm))
    have hidx : i + 1 - 1 = i := by omega
    rw [hidx, hgetd] at hrec
    rw [List.cons_append, filterWithIndexAux,
      keepLine_eq_foldCase L ic l i hi hl.1 hl.2, keepAdjBy]
    by_cases h : foldCase ic (L.getD (i - 1) []) = foldCase ic l
    · have hb : (!(decide (foldCase ic (L.getD (i - 1) []) = foldCase ic l)))
          = false := by rw [decide_eq_true h]; rfl
      rw [hb]
      simp only [Bool.false_eq_true, if_false]
      rw [if_pos h]
      exact hrec
    · have hb : (!(decide (foldCase ic (L.getD (i - 1) []) = foldCase ic l)))
          = true := by rw [decide_eq_false h]; rfl
      rw [hb]
      simp only [if_true]
      rw [if_neg h, List.cons_append, hrec]

theorem splitLF_joinLF :
    ∀ (ls : List JStr), ls ≠ [] → (∀ l ∈ ls, '\n' ∉ l) →
      splitLF (joinLF ls) = ls
  | [], h, _ => absurd rfl h
  | [l], _, hl => splitLF_no_LF_self l (hl l (by simp))
  | l :: l' :: ls, _, hl => by
    rw [joinLF_cons l (l' :: ls) (by simp),
      splitLF_append_cons l (joinLF (l' :: ls)) (hl l (by simp)),
      splitLF_joinLF (l' :: ls) (by simp)
        (fun m hm => hl m (List.mem_cons_of_mem l hm))]

theorem head?_append_left {α : Type} (a b : List α) (h : a ≠ []) :
    (a ++ b).head? = a.head? := by
  cases a with
  | nil => exact absurd rfl h
  | cons x a' => rfl

theorem noLFLF_joinLF :
    ∀ (ds : List JStr), (∀ l ∈ ds, l ≠ [] ∧ '\n' ∉ l) →
      noLFLF (joinLF ds ++ ['\n'])
  | [], _ => trivial
  | [d], hd => by
    refine noLFLF_append_left d ['\n'] ?_ ?_
    · exact fun c hc h => (hd d (by simp)).2 (h ▸ hc)
    · trivial
  | d :: d' :: ds, hels => by
    rw [joinLF_cons d (d' :: ds) (by simp), List.append_assoc,
      List.cons_append]
    refine noLFLF_append_left d _ ?_ ?_
    · exact fun c hc h => (hels d (by simp)).2 (h ▸ hc)
    · refine noLFLF_cons '\n' _ (fun hd' hhd' hcon => ?_)
        (noLFLF_joinLF (d' :: ds)
          (fun m hm => hels m (List.mem_cons_of_mem d hm)))
      rw [head?_append_left _ _
          (joinLF_ne_nil d' ds (hels d' (by simp)).1),
        joinLF_head d' ds (hels d' (by simp)).1] at hhd'
      have : hd' ∈ d' := List.mem_of_mem_head? hhd'
      exact (hels d' (by simp)).2 (hcon.2 ▸ this)

/-- `processContent` on a well-shaped input (nonempty, line-feed- and
carriage-return-free lines, one trailing newline) is adjacent
deduplication followed by restoring the single trailing newline. -/
theorem processContent_lines (ic : Bool) (l₀ : JStr) (ls : List JStr)
    (h : ∀ y ∈ l₀ :: ls, y ≠ [] ∧ '\n' ∉ y ∧ '\r' ∉ y) :
    processContent (joinLF (l₀ :: ls) ++ ['\n']) ic =
      joinLF (l₀ :: keepAdjBy (foldCase ic) l₀ ls) ++ ['\n'] := by
  have hsplit : splitLF (joinLF (l₀ :: ls) ++ ['\n']) = (l₀ :: ls) ++ [[]] := by
    rw [splitLF_append_LF,
      splitLF_joinLF (l₀ :: ls) (by simp) (fun m hm => (h m hm).2.1)]
  have hfil : uniqueLinesOf (joinLF (l₀ :: ls) ++ ['\n']) ic =
      (l₀ :: keepAdjBy (foldCase ic) l₀ ls) ++ [[]] := by
    unfold uniqueLinesOf filterWithIndex
    rw [hsplit, List.cons_append, filterWithIndexAux,
      if_pos (keepLine_zero _ ic l₀)]
    have haux := filterAux_eq_keepAdj ic (l₀ :: (ls ++ [[]])) ls 1
      (le_refl 1) (by rfl) (fun m hm => ⟨(h m (List.mem_cons_of_mem l₀ hm)).1,
        (h m (List.mem_cons_of_mem l₀ hm)).2.2⟩)
    have hget : (l₀ :: (ls ++ [[]])).getD 0 [] = l₀ := rfl
    rw [hget] at haux
    simp only [Nat.zero_add]
    rw [haux, List.cons_append]
  set ds := l₀ :: keepAdjBy (foldCase ic) l₀ ls with hds
  have hdsels : ∀ y ∈ ds, y ≠ [] ∧ '\n' ∉ y ∧ '\r' ∉ y := by
    intro y hy
    rcases List.mem_cons.1 hy with h1 | h1
    · exact h y (h1 ▸ List.mem_cons_self l₀ ls)
    · exact h y (List.mem_cons_of_mem l₀ (keepAdjBy_subset _ ls l₀ y h1))
  have hdsne : ds ≠ [] := by simp [hds]
  have hjne : joinLF ds ≠ [] := joinLF_ne_nil l₀ _ (h l₀ (by simp)).1
  have hdl := List.getLast?_eq_getLast ds hdsne
  have hdlmem : ds.getLast hdsne ∈ ds := getLast_mem' ds _ hdl
  have hjlast : (joinLF ds).getLast? = (ds.getLast hdsne).getLast? :=
    joinLF_getLast ds _ (fun m hm => (hdsels m hm).1) hdl
  have hjl1 : (joinLF ds).getLast? ≠ some '\n' := by
    intro hcon
    rw [hjlast] at hcon
    exact (hdsels _ hdlmem).2.1 (getLast_mem' _ _ hcon)
  have hjl2 : (joinLF ds).getLast? ≠ some '\r' := by
    intro hcon
    rw [hjlast] at hcon
    exact (hdsels _ hdlmem).2.2 (getLast_mem' _ _ hcon)
  unfold processContent
  rw [hfil, joinLF_append_nil ds hdsne]
  simp only [updateTrailingNewlines]
  rw [if_pos (gtnc_pos_append _),
    collapseLF_eq_self _ (noLFLF_joinLF ds
      (fun m hm => ⟨(hdsels m hm).1, (hdsels m hm).2.1⟩)),
    replaceTrailing_append_LF _ hjl1 hjl2]

/-! ## Claim C3 (amended): restricted idempotence -/

/-- C3 (amended): Default Dedup is idempotent on inputs of the shape
`l₀\n…\nlk\n` — ending in a line-feed, every line nonempty and free of
carriage returns — for every value of `ignoreCase`.  (In general a second
application can remove further duplicates made adjacent by the blank-line
collapse, the carriage-return asymmetry, or trailing-whitespace trimming:
see `claimC3_counterexample`.) -/
theorem claimC3 (ic : Bool) (l₀ : JStr) (ls : List JStr)
    (h : ∀ y ∈ l₀ :: ls, y ≠ [] ∧ '\n' ∉ y ∧ '\r' ∉ y) :
    processContent (processContent (joinLF (l₀ :: ls) ++ ['\n']) ic) ic =
      processContent (joinLF (l₀ :: ls) ++ ['\n']) ic := by
  have h1 := processContent_lines ic l₀ ls h
  have hsub : ∀ y ∈ l₀ :: keepAdjBy (foldCase ic) l₀ ls,
      y ≠ [] ∧ '\n' ∉ y ∧ '\r' ∉ y := by
    intro y hy
    rcases List.mem_cons.1 hy with hy1 | hy1
    · exact h y (hy1 ▸ List.mem_cons_self l₀ ls)
    · exact h y (List.mem_cons_of_mem l₀ (keepAdjBy_subset _ ls l₀ y hy1))
  have h2 := processContent_lines ic l₀ (keepAdjBy (foldCase ic) l₀ ls) hsub
  rw [h1, h2, keepAdjBy_of_noAdjDup (foldCase ic) _ l₀
    (keepAdjBy_noAdjDup (foldCase ic) ls l₀)]

/-- Witness for C3 on `"a\na\nb\n"` (written through `joinLF`). -/
theorem claimC3_witness :
    processContent
        (processContent (joinLF [jstr "a", jstr "a", jstr "b"] ++ ['\n']) false)
        false =
      processContent (joinLF [jstr "a", jstr "a", jstr "b"] ++ ['\n']) false :=
  claimC3 false (jstr "a") [jstr "a", jstr "b"] (by decide)

end Zuniq
